import Mathlib

/-!
# Verification of the lambda_backend conversational analytics service

This file gives a shallow embedding, in Lean 4, of the algorithmic core of the
`lambda_backend` repository (a FastAPI service exposing a tool-calling
conversational analytics agent over a jobs database) and proves properties of
it.  The embedding covers:

* the `search_jobs` input validation (`app/schemas/tools.py`);
* the in-process aggregation engine of `execute_job_stats`
  (`app/services/joblab_tools.py`): monthly trend series, total-only
  collapse, and grouped counts with truncation;
* the prompt guardrail `_enforce_prompt_filters` and the follow-up logic
  `_build_followup_args` together with the dialogue round loop of the
  `/ai/ask` endpoint (`app/routers/ai.py`);
* the per-conversation memory (`app/services/conversation_memory.py`);
* the strict/relaxed candidate selection of the CV matching pipeline
  (`app/services/cv_service.py`).

Python dictionaries whose key sets are fixed by the schema are modelled as
Lean structures with `Option` fields (`none` = key absent or `None`).  Python
`sorted` is modelled by Mathlib's `List.insertionSort`, which is a stable
sort, hence extensionally identical to CPython's stable `sorted`.  Python
strings are Lean `String`s (in this toolchain a structure holding a
`List Char`), and the handful of Python string operations used by the code
(`lower`, `strip`, `rstrip`, `in`, `split`, slicing) are given direct
list-of-characters implementations below so that all definitions are
executable by the kernel.
-/

namespace LambdaBackend

/-! ## Python string primitives -/

/-- Python's `s.lower()` (character-wise lowercasing). -/
def lowerStr (s : String) : String := ⟨s.data.map Char.toLower⟩

/-- Python's `s.strip()`: remove leading and trailing whitespace. -/
def stripStr (s : String) : String :=
  ⟨((s.data.dropWhile Char.isWhitespace).reverse.dropWhile Char.isWhitespace).reverse⟩

/-- Membership of a character in the punctuation set `"!.,?"`. -/
def isTrailPunct (c : Char) : Bool :=
  c = '!' || c = '.' || c = ',' || c = '?'

/-- Python's `s.rstrip("!.,?")`: drop any run of trailing `!`, `.`, `,`, `?`. -/
def rstripPunct (s : String) : String :=
  ⟨(s.data.reverse.dropWhile isTrailPunct).reverse⟩

/-- `hasSubstrAux pat s` decides whether the character list `pat` occurs
contiguously inside `s` — Python's `pat in s` on strings. -/
def hasSubstrAux (pat : List Char) : List Char → Bool
  | [] => pat.isEmpty
  | c :: t => pat.isPrefixOf (c :: t) || hasSubstrAux pat t

/-- Python's `pat in s` for strings. -/
def hasSubstr (s pat : String) : Bool := hasSubstrAux pat.data s.data

/-- Count the whitespace-separated words of `s` — the length of Python's
`s.split()` (no-argument split: runs of whitespace, no empty tokens). -/
def wordCountAux : List Char → Bool → Nat → Nat
  | [], _, n => n
  | c :: t, inWord, n =>
    if c.isWhitespace then wordCountAux t false n
    else if inWord then wordCountAux t true n
    else wordCountAux t true (n + 1)

/-- `len(s.split())` in Python. -/
def wordCount (s : String) : Nat := wordCountAux s.data false 0

/-- Python's `s[:n]` string slicing (first `n` characters). -/
def takeStr (s : String) (n : Nat) : String := ⟨s.data.take n⟩

/-- Python's `len(s)` (number of characters). -/
def lenStr (s : String) : Nat := s.data.length

/-! ## `search_jobs` input validation (`app/schemas/tools.py`)

`SearchJobsInput.limit` is declared `Field(default=20, ge=1, le=100)` with a
`mode="before"` validator `_clamp_limit` that runs *first* and replaces the
supplied value by `min(int(v), 100)` (or the default 20 when the value is
missing/`None`).  Only afterwards are the `ge`/`le` bounds checked. -/

def DEFAULT_LIMIT : Int := 20

def HARD_MAX_LIMIT : Int := 100

/-- Validation of the `limit` field of `SearchJobsInput`: the `_clamp_limit`
before-validator followed by pydantic's `ge=1, le=100` field constraint.
Returns `Except.error` exactly when pydantic would raise a validation error
(which happens before any upstream data-store call). -/
def validateLimit (v : Option Int) : Except String Int :=
  let w : Int := match v with
    | none => DEFAULT_LIMIT
    | some n => min n HARD_MAX_LIMIT
  if 1 ≤ w ∧ w ≤ HARD_MAX_LIMIT then Except.ok w
  else Except.error "limit out of range"

/-! ## CV match strict/relaxed selection (`app/services/cv_service.py`)

In `match_cv`, after the 30-day recency filter, `recent_job_ids` holds the
candidate job ids in descending-similarity order.  Step 5c partitions them
with `passes_filters` into `strict_matches` and `relaxed_matches`, then
builds `final_job_ids`/`final_relaxed_flags`:

    MIN_STRICT = 5
    TARGET_TOTAL = 10
    final_job_ids = strict_matches[:TARGET_TOTAL]        # flags False
    if len(final_job_ids) < TARGET_TOTAL and relaxed_matches:
        additional = relaxed_matches[:TARGET_TOTAL - len(final_job_ids)]
        ...                                              # flags True

The output pairs each selected id with its `relaxed_criteria` flag. -/

def MIN_STRICT : Nat := 5

def TARGET_TOTAL : Nat := 10

/-- The strict/relaxed selection of `match_cv` (step 5c), for the
`has_filters` branch: `recent` is `recent_job_ids` (descending similarity),
`passes` is `passes_filters`.  Each returned pair is a job id together with
its `relaxed_criteria` flag. -/
def selectFinal (recent : List String) (passes : String → Bool) :
    List (String × Bool) :=
  let strict := recent.filter passes
  let relaxed := recent.filter (fun j => ¬ passes j)
  let final := strict.take TARGET_TOTAL
  let flagged := final.map (fun j => (j, false))
  if final.length < TARGET_TOTAL ∧ relaxed ≠ [] then
    flagged ++ (relaxed.take (TARGET_TOTAL - final.length)).map (fun j => (j, true))
  else
    flagged

/-! ## The aggregation engine (`execute_job_stats`, `app/services/joblab_tools.py`)

`execute_job_stats` selects a single column from the store (`posted_date`
when `group_by == "posted_month"`, otherwise the `group_by` column itself)
and aggregates the fetched rows in-process.  A fetched row is therefore
modelled as the value of that one selected column: `Option String`, with
`none` for a SQL NULL / missing key. -/

/-- Validated `job_stats` input (`JobStatsInput` in `app/schemas/tools.py`).
The schema has exactly these fields; `group_by` is whitelisted against
`ALLOWED_GROUP_BY` and `metric` against `ALLOWED_METRICS` by pydantic. -/
structure JobStatsParams where
  metric : String
  group_by : String
  country : Option String := none
  is_remote : Option Bool := none
  is_research : Option Bool := none
  job_type_filled : Option String := none
  posted_start : Option String := none
  posted_end : Option String := none
deriving DecidableEq

/-- One element of the list returned by `execute_job_stats`.  The monthly
branch emits all four keys; the other branches emit dicts with only
`value`/`count`, modelled by `none` in the two optional fields. -/
structure AggRow where
  value : String
  count : Nat
  delta_from_previous : Option Int := none
  percent_change : Option ℚ := none
deriving DecidableEq

/-- Python's `round(num/den, 2)` (`den > 0`) on the exact value: round to
the nearest multiple of 1/100, ties to even (banker's rounding). -/
def round2Frac (num den : Int) : ℚ :=
  let n : Int := num * 100
  let f : Int := n.fdiv den
  let rem : Int := n - f * den
  let r : Int :=
    if 2 * rem < den then f
    else if den < 2 * rem then f + 1
    else if f % 2 = 0 then f else f + 1
  mkRat r 100

/-- Boolean lexicographic comparison of character lists by code point —
Python's `<=` on strings (as used by `sorted` on the month keys). -/
def charListLe : List Char → List Char → Bool
  | [], _ => true
  | _ :: _, [] => false
  | a :: s, b :: t => if a < b then true else if b < a then false else charListLe s t

/-- Lexicographic `≤` on strings, as a sort relation with executable
decidability. -/
def strLe (a b : String) : Prop := charListLe a.data b.data = true

instance : DecidableRel strLe := fun _ _ => instDecidableEqBool _ _

theorem charListLe_total : ∀ s t : List Char,
    charListLe s t = true ∨ charListLe t s = true
  | [], t => Or.inl (by cases t <;> rfl)
  | a :: s, [] => Or.inr rfl
  | a :: s, b :: t => by
    rcases lt_trichotomy a b with h | h | h
    · exact Or.inl (by simp [charListLe, h])
    · subst h
      rcases charListLe_total s t with h' | h'
      · exact Or.inl (by simp [charListLe, lt_irrefl, h'])
      · exact Or.inr (by simp [charListLe, lt_irrefl, h'])
    · exact Or.inr (by simp [charListLe, h])

theorem charListLe_trans : ∀ s t u : List Char,
    charListLe s t = true → charListLe t u = true → charListLe s u = true
  | [], _, u, _, _ => by cases u <;> rfl
  | a :: s, [], _, h₁, _ => by simp [charListLe] at h₁
  | a :: s, b :: t, [], _, h₂ => by simp [charListLe] at h₂
  | a :: s, b :: t, c :: u, h₁, h₂ => by
    simp only [charListLe] at h₁ h₂ ⊢
    rcases lt_trichotomy a b with hab | hab | hab
    · rcases lt_trichotomy b c with hbc | hbc | hbc
      · simp [lt_trans hab hbc]
      · subst hbc; simp [hab]
      · simp [lt_asymm hbc, hbc] at h₂
    · subst hab
      rcases lt_trichotomy a c with hac | hac | hac
      · simp [hac]
      · subst hac
        simp only [lt_irrefl, if_false] at h₁ h₂ ⊢
        exact charListLe_trans s t u h₁ h₂
      · simp [lt_asymm hac, hac] at h₂
    · simp [lt_asymm hab, hab] at h₁

instance : IsTotal String strLe := ⟨fun a b => charListLe_total a.data b.data⟩

instance : IsTrans String strLe := ⟨fun a b c => charListLe_trans a.data b.data c.data⟩

theorem lex_lt_of_charListLe : ∀ s t : List Char,
    charListLe s t = true → s ≠ t → List.Lex (· < ·) s t
  | [], [], _, hne => absurd rfl hne
  | [], _ :: _, _, _ => List.Lex.nil
  | x :: xs, [], h, _ => by simp [charListLe] at h
  | x :: xs, y :: ys, h, hne => by
    simp only [charListLe] at h
    by_cases hxy : x < y
    · exact List.Lex.rel hxy
    · by_cases hyx : y < x
      · simp [hxy, hyx] at h
      · have hx : x = y := le_antisymm (not_lt.1 hyx) (not_lt.1 hxy)
        subst hx
        have hys : xs ≠ ys := fun hh => hne (by rw [hh])
        simp [hxy] at h
        exact List.Lex.cons (lex_lt_of_charListLe xs ys h hys)

/-- `strLe` agrees with the genuine (Mathlib) lexicographic strict order on
`String`: `strLe`-sorted plus distinct implies `<`-sorted. -/
theorem lt_of_strLe_of_ne {a b : String} (h : strLe a b) (hne : a ≠ b) : a < b := by
  have hd : a.data ≠ b.data := fun hh => hne (by cases a; cases b; cases hh; rfl)
  rw [String.lt_iff_toList_lt]
  exact lex_lt_of_charListLe a.data b.data h hd

/-- The month key a row contributes to the `posted_month` buckets, or `none`
when the row is skipped.  Mirrors the loop body:

    posted_date = row.get("posted_date")
    if not posted_date: continue
    month_key = str(posted_date)[:7]
    if len(month_key) != 7 or month_key[4] != "-": continue
-/
def extractMonthKey : Option String → Option String
  | none => none
  | some d =>
    if d = "" then none
    else
      let k := takeStr d 7
      if lenStr k = 7 ∧ k.data.getD 4 ' ' = '-' then some k else none

/-- The distinct elements of a list in first-encounter order — the key set
of a Python dict built by repeated `dict[key] = ...` updates. -/
def firstKeys : List String → List String
  | [] => []
  | k :: t => k :: (firstKeys t).filter (fun x => x ≠ k)

/-- `month_counts` of the `posted_month` branch with its keys already in
Python's `sorted(...)` (ascending lexicographic) order: each distinct valid
month key paired with the number of rows falling into that bucket. -/
def sortedMonthCounts (rows : List (Option String)) : List (String × Nat) :=
  let keys := firstKeys (rows.filterMap extractMonthKey)
  (keys.insertionSort strLe).map
    (fun k => (k, rows.countP (fun r => extractMonthKey r = some k)))

/-- The second loop of the `posted_month` branch: walk the sorted buckets
carrying `previous_count`, computing `delta` and `percent_change`. -/
def monthlySeries : Option Nat → List (String × Nat) → List AggRow
  | _, [] => []
  | prev, (m, c) :: rest =>
    let delta : Option Int := prev.map (fun p => (c : Int) - (p : Int))
    let pc : Option ℚ :=
      match prev with
      | none => none
      | some p =>
        if p = 0 then none
        else some (round2Frac (((c : Int) - (p : Int)) * 100) (p : Int))
    ⟨m, c, delta, pc⟩ :: monthlySeries (some c) rest

/-- The whole `posted_month` branch of `execute_job_stats`. -/
def jobStatsMonthly (rows : List (Option String)) : List AggRow :=
  monthlySeries none (sortedMonthCounts rows)

/-- The `group_dimension_filters` dict of `execute_job_stats`, looked up at
`params.group_by`.  `JobStatsInput` has no `job_level_std`,
`job_function_std`, `company_industry_std` or `platform` attribute, so the
`getattr(params, ..., None)` entries are constantly `None`; keys absent from
the dict (e.g. `company_name`) give `None` via `.get`. -/
def dimensionFilterValue (p : JobStatsParams) : Option String :=
  if p.group_by = "country" then p.country
  else if p.group_by = "job_level_std" then none
  else if p.group_by = "job_function_std" then none
  else if p.group_by = "company_industry_std" then none
  else if p.group_by = "job_type_filled" then p.job_type_filled
  else if p.group_by = "platform" then none
  else none

/-- `total_only_mode`: the grouped dimension is already constrained by a
matching non-empty filter. -/
def totalOnlyMode (p : JobStatsParams) : Bool :=
  decide (p.metric = "count") &&
    match dimensionFilterValue p with
    | none => false
    | some s => decide (stripStr s ≠ "")

/-- The group key of a row in the general grouped-count branch:
`row.get(col) or "Unknown"` (both a missing value and an empty string are
falsy and bucket under the sentinel). -/
def keyOfRow : Option String → String
  | none => "Unknown"
  | some s => if s = "" then "Unknown" else s

/-- The `counts` dict of the general branch, in first-encounter key order
(Python dict insertion order), each key paired with its total count. -/
def groupCounts (rows : List (Option String)) : List (String × Nat) :=
  (firstKeys (rows.map keyOfRow)).map
    (fun k => (k, rows.countP (fun r => keyOfRow r = k)))

/-- The sort key relation of `sorted(..., key=lambda x: x["count"],
reverse=True)`: `a` may come before `b` iff `a`'s count is ≥ `b`'s. -/
def countGE (a b : String × Nat) : Prop := b.2 ≤ a.2

instance : DecidableRel countGE := fun a b => Nat.decLe b.2 a.2

instance : IsTotal (String × Nat) countGE :=
  ⟨fun a b => Nat.le_total b.2 a.2⟩

instance : IsTrans (String × Nat) countGE :=
  ⟨fun _ _ _ h h' => Nat.le_trans h' h⟩

/-- The general grouped-count branch: stable-sort the per-group counts
descending by count and keep the top 25.  `List.insertionSort` is a stable
sort, hence extensionally equal to CPython's stable `sorted(...,
reverse=True)`. -/
def jobStatsGrouped (rows : List (Option String)) : List AggRow :=
  (((groupCounts rows).insertionSort countGE).take 25).map
    (fun p => ⟨p.1, p.2, none, none⟩)

/-- `execute_job_stats` after the paginated fetch, acting on the fetched
rows (the selected column of each row). -/
def executeJobStats (p : JobStatsParams) (rows : List (Option String)) :
    List AggRow :=
  if p.group_by = "posted_month" then jobStatsMonthly rows
  else if totalOnlyMode p then [⟨"total", rows.length, none, none⟩]
  else jobStatsGrouped rows

/-! ## Guardrail and dialogue orchestrator (`app/routers/ai.py`)

Tool-call inputs are dicts whose possible keys are fixed by the tool
schemas; they are modelled as a record of `Option` fields (`none` = key
absent or `None`). -/

/-- A tool-call argument dict (the union of the `search_jobs` and
`job_stats` schemas, which is every key the router ever reads or writes). -/
structure ToolArgs where
  metric : Option String := none
  group_by : Option String := none
  job_id : Option String := none
  role_keyword : Option String := none
  country : Option String := none
  is_remote : Option Bool := none
  is_research : Option Bool := none
  job_level_std : Option String := none
  job_function_std : Option String := none
  company_industry_std : Option String := none
  job_type_filled : Option String := none
  platform : Option String := none
  posted_start : Option String := none
  posted_end : Option String := none
  limit : Option Int := none
deriving DecidableEq

/-- `_NEGATED_RESEARCH_PATTERNS`. -/
def NEGATED_RESEARCH_PATTERNS : List String :=
  ["non research", "non-research", "not research", "exclude research",
   "excluding research", "without research"]

/-- `_AFFIRMATIVE_PATTERNS`. -/
def AFFIRMATIVE_PATTERNS : List String :=
  ["yes", "yeah", "yep", "yup", "sure", "please", "ok", "okay",
   "go ahead", "do it", "show me", "tell me", "absolutely",
   "of course", "why not", "right", "correct", "exactly",
   "more", "details", "elaborate", "explain", "break it down",
   "breakdown", "continue", "go on", "please do"]

/-- `_NEGATIVE_PATTERNS`. -/
def NEGATIVE_PATTERNS : List String :=
  ["no", "nah", "nope", "no thanks", "no thank you",
   "not now", "not really", "never mind", "nevermind",
   "skip", "pass", "i'm good", "im good", "that's all",
   "thats all", "all good", "nothing else"]

/-- `prompt.strip().lower().rstrip("!.,?")` — the normalisation applied
before matching the affirmative/negative phrase sets. -/
def normalizeShort (prompt : String) : String :=
  rstripPunct (lowerStr (stripStr prompt))

/-- `_is_affirmative_followup`. -/
def isAffirmativeFollowup (prompt : String) : Bool :=
  decide (normalizeShort prompt ∈ AFFIRMATIVE_PATTERNS)

/-- `_is_negative_followup`. -/
def isNegativeFollowup (prompt : String) : Bool :=
  decide (normalizeShort prompt ∈ NEGATIVE_PATTERNS)

/-- `_infer_research_filter`: negated-research phrase → `some false`; bare
"research" → `some true`; otherwise `none`. -/
def inferResearchFilter (prompt : String) : Option Bool :=
  let pl := lowerStr prompt
  if NEGATED_RESEARCH_PATTERNS.any (fun pat => hasSubstr pl pat) then some false
  else if hasSubstr pl "research" then some true
  else none

/-- `_enforce_prompt_filters`: for the listing/count tools, inject the
inferred research filter only when the model left `is_research` unset. -/
def enforcePromptFilters (toolName : String) (toolInput : ToolArgs)
    (prompt : String) : ToolArgs :=
  if toolName = "search_jobs" ∨ toolName = "job_stats" then
    match inferResearchFilter prompt with
    | some b =>
      if toolInput.is_research = none then { toolInput with is_research := some b }
      else toolInput
    | none => toolInput
  else toolInput

/-- `_build_followup_args` for a prior `job_stats` call: `search_jobs` with
the same non-`None` shared filters and `limit = 20`.  (Copying a `none`
field is the same as not copying it, since the fresh dict has no keys.) -/
def followupFromStats (a : ToolArgs) : ToolArgs :=
  { country := a.country, is_remote := a.is_remote, is_research := a.is_research,
    job_type_filled := a.job_type_filled, posted_start := a.posted_start,
    posted_end := a.posted_end, limit := some 20 }

/-- `_build_followup_args` for a prior `search_jobs` call: `job_stats`
grouped by `job_function_std` with the same non-`None` shared filters. -/
def followupFromSearch (a : ToolArgs) : ToolArgs :=
  { metric := some "count", group_by := some "job_function_std",
    country := a.country, is_remote := a.is_remote, is_research := a.is_research,
    job_type_filled := a.job_type_filled, posted_start := a.posted_start,
    posted_end := a.posted_end }

/-- `_build_followup_args`. -/
def buildFollowupArgs (toolName : String) (args : ToolArgs) : String × ToolArgs :=
  if toolName = "job_stats" then ("search_jobs", followupFromStats args)
  else if toolName = "search_jobs" then ("job_stats", followupFromSearch args)
  else (toolName, args)

/-- The keys of `TOOL_EXECUTORS`. -/
def knownTools : List String := ["search_jobs", "job_stats", "semantic_search_jobs"]

/-- `DB_RELATED_KEYWORDS`. -/
def DB_RELATED_KEYWORDS : List String :=
  ["job", "jobs", "how many", "count", "list", "show", "find", "trend",
   "increase", "decrease", "growth", "decline", "month-over-month",
   "comparison", "compare", "change", "hiring", "posted", "research",
   "remote", "industry", "full-time", "part-time", "contract", "internship",
   "related to", "about", "similar to", "positions mentioning",
   "jobs involving", "skills like", "roles that deal with"]

/-- `_is_database_related`. -/
def isDatabaseRelated (prompt : String) : Bool :=
  DB_RELATED_KEYWORDS.any (fun kw => hasSubstr (lowerStr prompt) kw)

def MAX_TOOL_ROUNDS : Nat := 5

def MAX_SOFT_ENFORCEMENT_RETRIES : Nat := 2

/-- The per-conversation memory slice the `/ai/ask` endpoint reads and
writes (`last_tool_name`/`last_tool_args` and `pending_followup`; the
follow-up's constant `"type"` tag is omitted). -/
structure ConvState where
  lastTool : Option (String × ToolArgs) := none
  pending : Option (String × ToolArgs) := none
deriving DecidableEq

/-- One reply of the external completion service: whether
`stop_reason == "tool_use"`, the `tool_use` blocks, and the concatenated
text blocks. -/
structure ModelReply where
  hasToolUse : Bool
  toolCalls : List (String × ToolArgs)
  text : String

/-- The external collaborators of one `/ai/ask` request, abstracted at
their interface boundary: `replyAt n` is the completion-service reply to
the `n`-th `invoke_claude` call of the request, and `execOk` tells whether
a tool executor call raises. -/
structure Oracle where
  replyAt : Nat → ModelReply
  execOk : String → ToolArgs → Bool

/-- What `/ai/ask` returns (the fields of `AskResponse` the design is
about) together with how many completion-service calls were made. -/
structure AskOutcome where
  answer : String
  tool_calls : Option (List (String × ToolArgs))
  llmCalls : Nat

/-- `collected_tool_calls or None`. -/
def optCalls (collected : List (String × ToolArgs)) :
    Option (List (String × ToolArgs)) :=
  if collected.isEmpty then none else some collected

def declineText : String := "Alright. Let me know if you'd like additional insights."

def refusalText : String :=
  "I could not complete this database request because no tool call was produced."

def fallbackText : String :=
  "I was unable to complete the request within the allowed steps."

/-- After-loop bookkeeping: `if has_called_tool and collected_tool_calls:
set_pending_followup(..., collected[-1])`. -/
def armPending (st : ConvState) (hasCalled : Bool)
    (collected : List (String × ToolArgs)) : ConvState :=
  if hasCalled then
    match collected.getLast? with
    | some c => { st with pending := some c }
    | none => st
  else st

/-- Per-round tool execution bookkeeping: for each call whose name is in
the executor registry, `set_last_tool` (run for failing executors too). -/
def setLastTools (st : ConvState) (calls : List (String × ToolArgs)) : ConvState :=
  calls.foldl
    (fun s c => if c.1 ∈ knownTools then { s with lastTool := some c } else s) st

/-- The guardrail applied to each tool call of a round
(`_enforce_prompt_filters` on each extracted `tool_use` block). -/
def adjustCalls (prompt : String) (calls : List (String × ToolArgs)) :
    List (String × ToolArgs) :=
  calls.map (fun c => (c.1, enforcePromptFilters c.1 c.2 prompt))

/-- The `for _round in range(MAX_TOOL_ROUNDS)` loop of `ask`.  `fuel` is
the number of rounds left, `idx` the number of completion calls made so
far, `retry` = `no_tool_retry_count`, `hasCalled` = `has_called_tool`,
`collected` = `collected_tool_calls`, `lastReply` the previous round's
`raw` (used by the post-loop `extract_text(raw)`). -/
def roundLoop (o : Oracle) (prompt : String) (dbRel : Bool) :
    Nat → Nat → Nat → Bool → List (String × ToolArgs) → ModelReply →
    ConvState → AskOutcome × ConvState
  | 0, idx, _retry, hasCalled, collected, lastReply, st =>
    let ans := if lastReply.text = "" then fallbackText else lastReply.text
    ({ answer := ans, tool_calls := optCalls collected, llmCalls := idx },
      armPending st hasCalled collected)
  | fuel + 1, idx, retry, hasCalled, collected, _lastReply, st =>
    let raw := o.replyAt idx
    if raw.hasToolUse then
      let adjusted := adjustCalls prompt raw.toolCalls
      roundLoop o prompt dbRel fuel (idx + 1) retry true (collected ++ adjusted)
        raw (setLastTools st adjusted)
    else if dbRel ∧ hasCalled = false ∧ retry < MAX_SOFT_ENFORCEMENT_RETRIES then
      roundLoop o prompt dbRel fuel (idx + 1) (retry + 1) hasCalled collected raw st
    else if dbRel ∧ hasCalled = false then
      ({ answer := refusalText, tool_calls := optCalls collected, llmCalls := idx + 1 },
        st)
    else
      ({ answer := raw.text, tool_calls := optCalls collected, llmCalls := idx + 1 },
        armPending st hasCalled collected)

/-- The normal (non-follow-up) flow of `ask`: classify the prompt, then run
the bounded round loop. -/
def normalFlow (o : Oracle) (st : ConvState) (prompt : String) :
    AskOutcome × ConvState :=
  let dbRel := isDatabaseRelated prompt ||
    (st.lastTool.isSome && decide (wordCount prompt ≤ 6))
  roundLoop o prompt dbRel MAX_TOOL_ROUNDS 0 0 false [] ⟨false, [], ""⟩ st

/-- The confirmed-follow-up branch of `ask`: clear the pending state, build
the expanded call with `_build_followup_args`, execute it, summarise the
result with a single completion call, store it as the last tool and arm a
new pending follow-up referencing it. -/
def followupBranch (o : Oracle) (st : ConvState) (tn : String) (ta : ToolArgs) :
    AskOutcome × ConvState :=
  let st0 : ConvState := { st with pending := none }
  let c := buildFollowupArgs tn ta
  if c.1 ∉ knownTools then
    ({ answer := "Unknown tool: " ++ c.1, tool_calls := none, llmCalls := 0 }, st0)
  else if o.execOk c.1 c.2 = false then
    ({ answer := "Tool execution failed", tool_calls := some [c], llmCalls := 0 }, st0)
  else
    ({ answer := (o.replyAt 0).text, tool_calls := some [c], llmCalls := 1 },
      { st0 with lastTool := some c, pending := some c })

/-- The `/ai/ask` endpoint for one request: pending-follow-up resolution
(negative, then affirmative), else the normal flow. -/
def askModel (o : Oracle) (st : ConvState) (prompt : String) :
    AskOutcome × ConvState :=
  match st.pending with
  | some (tn, ta) =>
    if isNegativeFollowup prompt then
      ({ answer := declineText, tool_calls := none, llmCalls := 0 },
        { st with pending := none })
    else if isAffirmativeFollowup prompt then
      followupBranch o st tn ta
    else normalFlow o st prompt
  | none => normalFlow o st prompt

/-! ## Conversation memory: recently mentioned jobs
(`app/services/conversation_memory.py`) -/

/-- A "slim dict" describing a mentioned job: its (possibly missing or
empty, hence falsy) `job_id` plus the remaining payload fields, which
`set_mentioned_jobs` never inspects. -/
structure MentionedJob where
  job_id : Option String := none
  payload : List (String × String) := []
deriving DecidableEq

def MAX_MENTIONED_JOBS : Nat := 10

/-- Python truthiness of `job.get("job_id")`. -/
def jobIdTruthy (j : MentionedJob) : Bool :=
  match j.job_id with
  | none => false
  | some s => decide (s ≠ "")

/-- The merge loop of `set_mentioned_jobs`:

    for job in jobs + existing:
        jid = job.get("job_id")
        if jid and jid not in seen: seen.add(jid); merged.append(job)
        if len(merged) >= _MAX_MENTIONED_JOBS: break
-/
def mergeMentioned : List MentionedJob → List String → List MentionedJob →
    List MentionedJob
  | [], _, merged => merged
  | ⟨none, _⟩ :: rest, seen, merged =>
    if MAX_MENTIONED_JOBS ≤ merged.length then merged
    else mergeMentioned rest seen merged
  | ⟨some jid, payload⟩ :: rest, seen, merged =>
    if jid ≠ "" ∧ jid ∉ seen then
      if MAX_MENTIONED_JOBS ≤ (merged ++ [(⟨some jid, payload⟩ : MentionedJob)]).length then
        merged ++ [(⟨some jid, payload⟩ : MentionedJob)]
      else mergeMentioned rest (jid :: seen) (merged ++ [(⟨some jid, payload⟩ : MentionedJob)])
    else
      if MAX_MENTIONED_JOBS ≤ merged.length then merged
      else mergeMentioned rest seen merged

/-- The `mentioned_jobs` slice of `_MEMORY`, as a map from conversation id
to the stored list (`none` = the conversation was never written). -/
def MentionedStore : Type := String → Option (List MentionedJob)

/-- `set_mentioned_jobs`. -/
def setMentionedJobs (mem : MentionedStore) (cid : String)
    (jobs : List MentionedJob) : MentionedStore :=
  fun c =>
    if c = cid then
      some (mergeMentioned (jobs ++ (mem cid).getD []) [] [])
    else mem c

/-- `get_mentioned_jobs`. -/
def getMentionedJobs (mem : MentionedStore) (cid : String) : List MentionedJob :=
  (mem cid).getD []

/-! ## Helper lemmas -/

theorem firstKeys_nodup : ∀ l : List String, (firstKeys l).Nodup
  | [] => List.nodup_nil
  | k :: t => by
    rw [firstKeys]
    refine List.Nodup.cons ?_ ((firstKeys_nodup t).filter _)
    intro hmem
    have := List.of_mem_filter hmem
    simp at this

theorem mem_firstKeys {a : String} : ∀ {l : List String}, a ∈ firstKeys l ↔ a ∈ l
  | [] => Iff.rfl
  | k :: t => by
    rw [firstKeys]
    by_cases hak : a = k
    · subst hak
      simp
    · simp only [List.mem_cons, List.mem_filter]
      constructor
      · rintro (h | ⟨h, _⟩)
        · exact Or.inl h
        · exact Or.inr (mem_firstKeys.1 h)
      · rintro (h | h)
        · exact Or.inl h
        · exact Or.inr ⟨mem_firstKeys.2 h, by simpa using hak⟩

theorem firstKeys_length (l : List String) :
    (firstKeys l).length = l.toFinset.card := by
  have hfin : (firstKeys l).toFinset = l.toFinset := by
    ext a
    simp [List.mem_toFinset, mem_firstKeys]
  rw [← hfin]
  exact (List.toFinset_card_of_nodup (firstKeys_nodup l)).symm

theorem sum_map_add {β : Type} (g h : β → ℕ) (ks : List β) :
    (ks.map (fun k => g k + h k)).sum = (ks.map g).sum + (ks.map h).sum := by
  induction ks with
  | nil => simp
  | cons k t ih =>
    simp [ih]
    omega

theorem sum_map_ite {β : Type} [DecidableEq β] (b : β) (ks : List β) :
    (ks.map (fun k => if b = k then 1 else 0)).sum = ks.count b := by
  induction ks with
  | nil => simp
  | cons k t ih =>
    by_cases hb : b = k
    · subst hb
      simp [List.count_cons, ih]
      omega
    · simp [hb, List.count_cons, Ne.symm hb, ih]

/-- Partitioning a list by the (distinct) values of a key function: the
per-key `countP`s sum to at most the list's length. -/
theorem sum_countP_le {α β : Type} [DecidableEq β] (f : α → β) :
    ∀ (l : List α) (ks : List β), ks.Nodup →
      (ks.map (fun k => l.countP (fun x => decide (f x = k)))).sum ≤ l.length
  | [], ks, _ => by simp
  | x :: t, ks, hk => by
    have hrec := sum_countP_le f t ks hk
    have hcnt : ks.count (f x) ≤ 1 := List.nodup_iff_count_le_one.1 hk (f x)
    simp only [List.countP_cons, decide_eq_true_eq]
    rw [sum_map_add, sum_map_ite]
    simp only [List.length_cons]
    omega

theorem sum_take_le (l : List ℕ) (n : Nat) : ((l.take n).sum ≤ l.sum) := by
  conv_rhs => rw [← List.take_append_drop n l]
  rw [List.sum_append]
  exact Nat.le_add_right _ _

theorem monthlySeries_pair_mem : ∀ (prev : Option Nat) (l : List (String × Nat))
    (r : AggRow), r ∈ monthlySeries prev l → (r.value, r.count) ∈ l
  | _, [], r, h => by simp [monthlySeries] at h
  | prev, (m, c) :: rest, r, h => by
    simp only [monthlySeries] at h
    rcases List.mem_cons.1 h with h | h
    · subst h
      simp
    · exact List.mem_cons_of_mem _ (monthlySeries_pair_mem (some c) rest r h)

theorem monthlySeries_map_value : ∀ (prev : Option Nat) (l : List (String × Nat)),
    (monthlySeries prev l).map (fun r => r.value) = l.map Prod.fst
  | _, [] => rfl
  | prev, (m, c) :: rest => by
    simp only [monthlySeries, List.map_cons]
    simpa using monthlySeries_map_value (some c) rest

theorem monthlySeries_map_count : ∀ (prev : Option Nat) (l : List (String × Nat)),
    (monthlySeries prev l).map (fun r => r.count) = l.map Prod.snd
  | _, [] => rfl
  | prev, (m, c) :: rest => by
    simp only [monthlySeries, List.map_cons]
    simpa using monthlySeries_map_count (some c) rest

/-- The relation between two consecutive rows of the monthly series:
`delta = count - previous_count`, and `percent_change` is
`round(delta / previous_count * 100, 2)` unless the previous count is 0. -/
def deltaRel (a b : AggRow) : Prop :=
  b.delta_from_previous = some ((b.count : Int) - (a.count : Int)) ∧
  b.percent_change =
    (if a.count = 0 then none
     else some (round2Frac (((b.count : Int) - (a.count : Int)) * 100) (a.count : Int)))

theorem monthlySeries_chain' : ∀ (prev : Option Nat) (l : List (String × Nat)),
    List.Chain' deltaRel (monthlySeries prev l)
  | _, [] => List.chain'_nil
  | prev, (m, c) :: rest => by
    simp only [monthlySeries]
    cases rest with
    | nil => simp [monthlySeries]
    | cons q rest' =>
      obtain ⟨m', c'⟩ := q
      simp only [monthlySeries]
      refine List.Chain'.cons ⟨rfl, rfl⟩ ?_
      have h := monthlySeries_chain' (some c) ((m', c') :: rest')
      simpa only [monthlySeries] using h

theorem monthlySeries_none_head : ∀ (l : List (String × Nat)) (r : AggRow),
    (monthlySeries none l).head? = some r →
    r.delta_from_previous = none ∧ r.percent_change = none
  | [], r, h => by simp [monthlySeries] at h
  | (m, c) :: rest, r, h => by
    simp only [monthlySeries] at h
    simp only [List.head?_cons, Option.some_inj] at h
    subst h
    exact ⟨rfl, rfl⟩

/-- Stability of the descending count sort: the elements with any fixed
count value come out in exactly their original (first-encounter) order. -/
theorem filter_insertionSort_count (l : List (String × Nat)) (c : Nat) :
    (l.insertionSort countGE).filter (fun p => p.2 = c) =
      l.filter (fun p => p.2 = c) := by
  have hpw : (l.filter (fun p => p.2 = c)).Pairwise countGE := by
    refine List.pairwise_of_forall_mem_list ?_
    intro a ha b hb
    have ha' : a.2 = c := by simpa using (List.of_mem_filter ha)
    have hb' : b.2 = c := by simpa using (List.of_mem_filter hb)
    unfold countGE
    rw [ha', hb']
  have hsub : List.Sublist (l.filter (fun p => p.2 = c)) (l.insertionSort countGE) :=
    List.sublist_insertionSort hpw (List.filter_sublist l)
  have hsub2 := hsub.filter (fun p => decide (p.2 = c))
  have hidem : (l.filter (fun p => p.2 = c)).filter (fun p => decide (p.2 = c)) =
      l.filter (fun p => p.2 = c) := by
    rw [List.filter_filter]
    apply List.filter_congr
    intro a _
    simp
  rw [hidem] at hsub2
  have hperm : List.Perm ((l.insertionSort countGE).filter (fun p => p.2 = c))
      (l.filter (fun p => p.2 = c)) :=
    (List.perm_insertionSort countGE l).filter _
  exact (hsub2.eq_of_length hperm.length_eq.symm).symm

theorem sortedMonthCounts_map_fst (rows : List (Option String)) :
    (sortedMonthCounts rows).map Prod.fst =
      (firstKeys (rows.filterMap extractMonthKey)).insertionSort strLe := by
  simp only [sortedMonthCounts, List.map_map]
  have hid : (Prod.fst ∘ fun k : String =>
      (k, rows.countP (fun r => extractMonthKey r = some k))) = id := rfl
  rw [hid, List.map_id]

theorem sortedMonthCounts_keys_nodup (rows : List (Option String)) :
    ((firstKeys (rows.filterMap extractMonthKey)).insertionSort strLe).Nodup :=
  ((List.perm_insertionSort strLe _).nodup_iff).2 (firstKeys_nodup _)

/-! ## Theorems -/

/-- **C1** (code bug).  The spec and the code's own comment ("If we have
fewer than 5 strict matches, add relaxed ones to reach 10 total") say that
relaxed backfill happens only when the number of strict matches is below
`MIN_STRICT = 5`.  The implementation instead backfills whenever the strict
matches number fewer than `TARGET_TOTAL = 10`.  Failing input: a
recency-filtered pool of 12 candidates of which exactly the first 7 pass
all filters.  With 7 strict matches (≥ 5) the returned list nevertheless
contains 3 relaxed entries flagged `relaxed=true`, instead of the 7 strict
matches alone. -/
theorem c1_relaxation_code_bug :
    (["j01","j02","j03","j04","j05","j06","j07","j08","j09","j10","j11","j12"].filter
        (fun j => decide (j ∈ ["j01","j02","j03","j04","j05","j06","j07"]))).length = 7 ∧
    MIN_STRICT ≤ 7 ∧
    selectFinal ["j01","j02","j03","j04","j05","j06","j07","j08","j09","j10","j11","j12"]
        (fun j => decide (j ∈ ["j01","j02","j03","j04","j05","j06","j07"])) =
      [("j01", false), ("j02", false), ("j03", false), ("j04", false),
       ("j05", false), ("j06", false), ("j07", false),
       ("j08", true), ("j09", true), ("j10", true)] := by
  decide

/-- **C2** (counterexample).  The claim says a `search_jobs` input whose
`limit` exceeds 100 is rejected by validation.  In fact the `mode="before"`
validator `_clamp_limit` replaces the value by `min(v, 100)` before the
`ge`/`le` bounds are checked, so `limit = 150` is silently accepted as
100 — not rejected. -/
theorem c2_limit_counterexample : validateLimit (some 150) = Except.ok 100 := rfl

/-- **C2** (amended).  For every `search_jobs` input whose `limit` exceeds
100, validation silently clamps the limit to the hard maximum 100 (and the
query proceeds with that value); it does not reject the input. -/
theorem c2_limit_clamped (n : Int) (h : 100 < n) :
    validateLimit (some n) = Except.ok 100 := by
  have h1 : (1 : Int) ≤ n := by omega
  have hmin : n ⊓ (100 : Int) = 100 := min_eq_right (by omega)
  simp [validateLimit, HARD_MAX_LIMIT, hmin, h1]

/-- Witness for `c2_limit_clamped` at the concrete oversized limit 231. -/
theorem c2_limit_clamped_witness :
    (100 : Int) < 231 ∧ validateLimit (some 231) = Except.ok 100 :=
  ⟨by decide, c2_limit_clamped 231 (by decide)⟩

/-- **C4** (confirmed).  Whenever `metric = "count"` and the grouping
dimension is also constrained by a non-empty (after stripping) filter on
the same dimension, `execute_job_stats` returns exactly the single row
`{value: "total", count: <number of fetched rows>}`. -/
theorem c4_total_only_collapse (p : JobStatsParams) (rows : List (Option String))
    (hm : p.metric = "count") (s : String)
    (hv : dimensionFilterValue p = some s) (hs : stripStr s ≠ "") :
    executeJobStats p rows = [⟨"total", rows.length, none, none⟩] := by
  have hg : p.group_by ≠ "posted_month" := by
    intro h
    simp [dimensionFilterValue, h] at hv
  have ht : totalOnlyMode p = true := by
    simp [totalOnlyMode, hm, hv, hs]
  simp [executeJobStats, hg, ht]

/-- Witness for `c4_total_only_collapse`: grouping by `country` while
filtering `country = "Germany"` over 37 fetched rows yields exactly
`[{value: "total", count: 37}]`. -/
theorem c4_total_only_collapse_witness :
    dimensionFilterValue
        { metric := "count", group_by := "country", country := some "Germany" } =
      some "Germany" ∧
    stripStr "Germany" ≠ "" ∧
    executeJobStats
        { metric := "count", group_by := "country", country := some "Germany" }
        (List.replicate 37 (some "Germany")) =
      [⟨"total", 37, none, none⟩] := by
  refine ⟨by decide, by decide, ?_⟩
  have h := c4_total_only_collapse
    { metric := "count", group_by := "country", country := some "Germany" }
    (List.replicate 37 (some "Germany")) rfl "Germany" (by decide) (by decide)
  simpa using h

/-- **C6** (confirmed).  The guardrail `_enforce_prompt_filters`, for the
listing/count tools (`search_jobs`, `job_stats`): a negated-research phrase
in the raw text forces `is_research := false` when the model left it unset;
the bare keyword `"research"` without a negated phrase forces
`is_research := true` when unset; an explicitly set `is_research` is never
changed (the input is returned unchanged); any other tool's input is
returned unchanged. -/
theorem c6_guardrail (tool : String) (inp : ToolArgs) (prompt : String) :
    ((tool = "search_jobs" ∨ tool = "job_stats") → inp.is_research = none →
      ((NEGATED_RESEARCH_PATTERNS.any (fun pat => hasSubstr (lowerStr prompt) pat) = true →
          enforcePromptFilters tool inp prompt = { inp with is_research := some false }) ∧
        (NEGATED_RESEARCH_PATTERNS.any (fun pat => hasSubstr (lowerStr prompt) pat) = false →
          hasSubstr (lowerStr prompt) "research" = true →
          enforcePromptFilters tool inp prompt = { inp with is_research := some true }))) ∧
    (inp.is_research ≠ none → enforcePromptFilters tool inp prompt = inp) ∧
    (tool ≠ "search_jobs" → tool ≠ "job_stats" →
      enforcePromptFilters tool inp prompt = inp) := by
  refine ⟨fun htool hunset => ⟨fun hneg => ?_, fun hnoneg hres => ?_⟩,
    fun hset => ?_, fun h₁ h₂ => ?_⟩
  · simp [enforcePromptFilters, htool, inferResearchFilter, hneg, hunset]
  · simp [enforcePromptFilters, htool, inferResearchFilter, hnoneg, hres, hunset]
  · by_cases htool : tool = "search_jobs" ∨ tool = "job_stats"
    · cases hrf : inferResearchFilter prompt with
      | none => simp [enforcePromptFilters, htool, hrf]
      | some b => simp [enforcePromptFilters, htool, hrf, hset]
    · simp [enforcePromptFilters, htool]
  · have hnot : ¬ (tool = "search_jobs" ∨ tool = "job_stats") := by
      rintro (h | h)
      · exact h₁ h
      · exact h₂ h
    simp [enforcePromptFilters, hnot]

/-- Witness for `c6_guardrail`: the prompt `"without research jobs"`
contains a negated-research phrase, so an unset `is_research` on a
`job_stats` input is forced to `false`. -/
theorem c6_guardrail_witness :
    NEGATED_RESEARCH_PATTERNS.any
        (fun pat => hasSubstr (lowerStr "without research jobs") pat) = true ∧
    enforcePromptFilters "job_stats" {} "without research jobs" =
      ({ is_research := some false } : ToolArgs) :=
  ⟨by decide,
    ((c6_guardrail "job_stats" {} "without research jobs").1 (Or.inr rfl) rfl).1 (by decide)⟩

theorem affirmative_not_negative :
    ∀ s ∈ AFFIRMATIVE_PATTERNS, s ∉ NEGATIVE_PATTERNS := by decide

/-- **C7** (confirmed).  With a pending follow-up whose prior tool was the
count-style tool `job_stats` and a prompt that matches the affirmative set
(case-insensitively, trailing punctuation stripped), `ask` clears the
pending state, derives the listing call `search_jobs` carrying exactly the
prior call's shared filters plus `limit = 20`, executes it (assumed to
succeed), summarises it with exactly one completion call, and arms a new
pending follow-up (and last-tool record) referencing the just-executed
call before returning. -/
theorem c7_followup_expansion (o : Oracle) (st : ConvState) (prompt : String)
    (a : ToolArgs)
    (hp : st.pending = some ("job_stats", a))
    (haff : isAffirmativeFollowup prompt = true)
    (hexec : o.execOk "search_jobs" (followupFromStats a) = true) :
    askModel o st prompt =
      ({ answer := (o.replyAt 0).text,
         tool_calls := some [("search_jobs", followupFromStats a)],
         llmCalls := 1 },
       { lastTool := some ("search_jobs", followupFromStats a),
         pending := some ("search_jobs", followupFromStats a) }) ∧
    (followupFromStats a).country = a.country ∧
    (followupFromStats a).is_remote = a.is_remote ∧
    (followupFromStats a).is_research = a.is_research ∧
    (followupFromStats a).job_type_filled = a.job_type_filled ∧
    (followupFromStats a).posted_start = a.posted_start ∧
    (followupFromStats a).posted_end = a.posted_end ∧
    (followupFromStats a).limit = some 20 := by
  have hneg : isNegativeFollowup prompt = false := by
    have hmem : normalizeShort prompt ∈ AFFIRMATIVE_PATTERNS := of_decide_eq_true haff
    have hnm : normalizeShort prompt ∉ NEGATIVE_PATTERNS :=
      affirmative_not_negative _ hmem
    simpa [isNegativeFollowup] using hnm
  refine ⟨?_, rfl, rfl, rfl, rfl, rfl, rfl, rfl⟩
  obtain ⟨lt, pd⟩ := st
  simp only [ConvState.pending] at hp
  subst hp
  simp [askModel, hneg, haff, followupBranch, buildFollowupArgs, knownTools, hexec]

/-- Witness for `c7_followup_expansion`: prompt `"sure"`, pending
`job_stats` call filtered to Germany. -/
theorem c7_followup_expansion_witness :
    isAffirmativeFollowup "sure" = true ∧
    askModel
        ⟨fun _ => ⟨false, [], "summary"⟩, fun _ _ => true⟩
        { lastTool := none, pending := some ("job_stats", { country := some "Germany" }) }
        "sure" =
      ({ answer := "summary",
         tool_calls := some [("search_jobs", { country := some "Germany", limit := some 20 })],
         llmCalls := 1 },
       { lastTool := some ("search_jobs", { country := some "Germany", limit := some 20 }),
         pending := some ("search_jobs", { country := some "Germany", limit := some 20 }) }) :=
  ⟨by decide,
    (c7_followup_expansion
      ⟨fun _ => ⟨false, [], "summary"⟩, fun _ _ => true⟩
      { lastTool := none, pending := some ("job_stats", { country := some "Germany" }) }
      "sure" { country := some "Germany" } rfl (by decide) rfl).1⟩

theorem roundLoop_llmCalls_le (o : Oracle) (prompt : String) (dbRel : Bool) :
    ∀ fuel idx retry hasCalled collected lastReply st,
      (roundLoop o prompt dbRel fuel idx retry hasCalled collected lastReply st).1.llmCalls
        ≤ idx + fuel := by
  intro fuel
  induction fuel with
  | zero =>
    intro idx retry hasCalled collected lastReply st
    simp [roundLoop]
  | succ n ih =>
    intro idx retry hasCalled collected lastReply st
    simp only [roundLoop]
    split_ifs with h1 h2 h3
    · exact le_trans (ih (idx + 1) retry true _ _ _) (by omega)
    · exact le_trans (ih (idx + 1) (retry + 1) hasCalled _ _ _) (by omega)
    · simp
    · simp

/-- **C8** (confirmed).  The model/tool round loop of `ask` makes at most
`MAX_TOOL_ROUNDS = 5` completion calls for any behaviour of the external
services; and when the completion service emits a tool call in every
round, the loop terminates after exactly round 5 and the request returns a
best-effort text answer (the last round's text, or a fixed fallback when
empty) together with all tool calls collected over the five rounds. -/
theorem c8_round_cap (o : Oracle) (st : ConvState) (prompt : String)
    (h : ∀ n, (o.replyAt n).hasToolUse = true) :
    (∀ o' : Oracle, (normalFlow o' st prompt).1.llmCalls ≤ MAX_TOOL_ROUNDS) ∧
    (normalFlow o st prompt).1.llmCalls = MAX_TOOL_ROUNDS ∧
    (normalFlow o st prompt).1.answer =
      (if (o.replyAt 4).text = "" then fallbackText else (o.replyAt 4).text) ∧
    (normalFlow o st prompt).1.tool_calls =
      optCalls (adjustCalls prompt (o.replyAt 0).toolCalls ++
        adjustCalls prompt (o.replyAt 1).toolCalls ++
        adjustCalls prompt (o.replyAt 2).toolCalls ++
        adjustCalls prompt (o.replyAt 3).toolCalls ++
        adjustCalls prompt (o.replyAt 4).toolCalls) := by
  refine ⟨fun o' => ?_, ?_, ?_, ?_⟩
  · simpa [normalFlow, MAX_TOOL_ROUNDS] using
      roundLoop_llmCalls_le o' prompt _ 5 0 0 false [] ⟨false, [], ""⟩ st
  all_goals
    simp [normalFlow, MAX_TOOL_ROUNDS, roundLoop, h]

/-- Witness for `c8_round_cap`: an oracle that answers every round with a
`job_stats` tool call. -/
theorem c8_round_cap_witness :
    (normalFlow
        ⟨fun _ => ⟨true, [("job_stats", {})], "partial"⟩, fun _ _ => true⟩
        {} "how many jobs").1.llmCalls = MAX_TOOL_ROUNDS :=
  (c8_round_cap
    ⟨fun _ => ⟨true, [("job_stats", {})], "partial"⟩, fun _ _ => true⟩
    {} "how many jobs" (fun _ => rfl)).2.1

/-- **C3** (confirmed).  The `posted_month` branch of `execute_job_stats`:
rows are bucketed by the first 7 characters of the date field; rows with a
missing date or a malformed key (length ≠ 7 or fifth character ≠ `-`) are
discarded (a bucket exists exactly for the well-formed keys present, and
its count is the number of rows mapping to it); buckets are emitted in
ascending lexicographic order; the first bucket has null delta and
percent_change; every later bucket satisfies `delta = count -
previous_count` and `percent_change = round(delta / previous_count * 100,
2)`, null when the previous count is 0.  In particular the delta
computation on consecutive monthly counts `[10, 15, 0]` yields deltas
`[null, 5, -15]` and percent_changes `[null, 50.0, -100.0]`. -/
theorem c3_posted_month (p : JobStatsParams) (rows : List (Option String))
    (hp : p.group_by = "posted_month") :
    executeJobStats p rows = jobStatsMonthly rows ∧
    ((jobStatsMonthly rows).map (fun r => r.value)).Sorted (· < ·) ∧
    (∀ r ∈ jobStatsMonthly rows,
      (∃ d ∈ rows, extractMonthKey d = some r.value) ∧
      r.count = rows.countP (fun d => extractMonthKey d = some r.value)) ∧
    (∀ d ∈ rows, ∀ k, extractMonthKey d = some k →
      k ∈ (jobStatsMonthly rows).map (fun r => r.value)) ∧
    (∀ r, (jobStatsMonthly rows).head? = some r →
      r.delta_from_previous = none ∧ r.percent_change = none) ∧
    List.Chain' deltaRel (jobStatsMonthly rows) ∧
    monthlySeries none [("2026-01", 10), ("2026-02", 15), ("2026-03", 0)] =
      [⟨"2026-01", 10, none, none⟩, ⟨"2026-02", 15, some 5, some 50⟩,
       ⟨"2026-03", 0, some (-15), some (-100)⟩] := by
  refine ⟨by simp [executeJobStats, hp], ?_, ?_, ?_, ?_,
    monthlySeries_chain' none _, by decide⟩
  · rw [jobStatsMonthly, monthlySeries_map_value, sortedMonthCounts_map_fst]
    have hs : List.Sorted strLe
        ((firstKeys (rows.filterMap extractMonthKey)).insertionSort strLe) :=
      List.sorted_insertionSort strLe _
    have hn := sortedMonthCounts_keys_nodup rows
    exact (hs.and hn).imp (fun h => lt_of_strLe_of_ne h.1 h.2)
  · intro r hr
    have hpair := monthlySeries_pair_mem none _ r hr
    simp only [sortedMonthCounts, List.mem_map] at hpair
    obtain ⟨k, hk, hkeq⟩ := hpair
    have hv : k = r.value := congrArg Prod.fst hkeq
    have hc : rows.countP (fun d => extractMonthKey d = some k) = r.count :=
      congrArg Prod.snd hkeq
    constructor
    · have hk' : k ∈ firstKeys (rows.filterMap extractMonthKey) :=
        (List.mem_insertionSort strLe).1 hk
      have hk'' : k ∈ rows.filterMap extractMonthKey := mem_firstKeys.1 hk'
      rw [← hv]
      simpa using List.mem_filterMap.1 hk''
    · rw [← hv]
      exact hc.symm
  · intro d hd k hk
    rw [jobStatsMonthly, monthlySeries_map_value, sortedMonthCounts_map_fst]
    rw [List.mem_insertionSort, mem_firstKeys, List.mem_filterMap]
    exact ⟨d, hd, hk⟩
  · intro r hr
    exact monthlySeries_none_head _ r hr

/-- Witness for `c3_posted_month`: a concrete mixed row set (well-formed
dates across two months, a missing date and a malformed one), plus the
`[10, 15, 0]` delta example. -/
theorem c3_posted_month_witness :
    executeJobStats { metric := "count", group_by := "posted_month" }
        [some "2026-02-01", some "2026-01-05", some "2026-02-09", none, some "bad"] =
      jobStatsMonthly
        [some "2026-02-01", some "2026-01-05", some "2026-02-09", none, some "bad"] ∧
    monthlySeries none [("2026-01", 10), ("2026-02", 15), ("2026-03", 0)] =
      [⟨"2026-01", 10, none, none⟩, ⟨"2026-02", 15, some 5, some 50⟩,
       ⟨"2026-03", 0, some (-15), some (-100)⟩] :=
  ⟨(c3_posted_month { metric := "count", group_by := "posted_month" }
      [some "2026-02-01", some "2026-01-05", some "2026-02-09", none, some "bad"]
      rfl).1,
    (c3_posted_month { metric := "count", group_by := "posted_month" }
      [some "2026-02-01", some "2026-01-05", some "2026-02-09", none, some "bad"]
      rfl).2.2.2.2.2.2⟩

/-- **C5** (confirmed).  The general grouped-count branch of
`execute_job_stats`: each emitted row's count is the number of rows whose
group value (with missing/empty values bucketed under the sentinel
`"Unknown"`) equals the row's value; the output is sorted descending by
count; it is truncated to at most 25 rows, and with 40 or more distinct
group values its length is exactly 25; ties are kept in first-encountered
order (the rows of any fixed count form a sublist of the
first-encounter-ordered per-group counts). -/
theorem c5_grouped_counts (p : JobStatsParams) (rows : List (Option String))
    (hg : p.group_by ≠ "posted_month") (ht : totalOnlyMode p = false) :
    executeJobStats p rows = jobStatsGrouped rows ∧
    (∀ r ∈ jobStatsGrouped rows,
      r.count = rows.countP (fun d => keyOfRow d = r.value)) ∧
    ((jobStatsGrouped rows).map (fun r => r.count)).Sorted (fun a b => b ≤ a) ∧
    (jobStatsGrouped rows).length ≤ 25 ∧
    (40 ≤ (rows.map keyOfRow).toFinset.card → (jobStatsGrouped rows).length = 25) ∧
    (∀ c : Nat, List.Sublist
      (((jobStatsGrouped rows).filter (fun r => r.count = c)).map
        (fun r => (r.value, r.count)))
      (groupCounts rows)) := by
  refine ⟨by simp [executeJobStats, hg, ht], ?_, ?_, ?_, ?_, ?_⟩
  · intro r hr
    simp only [jobStatsGrouped, List.mem_map] at hr
    obtain ⟨q, hq, hqe⟩ := hr
    have hq' : q ∈ (groupCounts rows).insertionSort countGE :=
      List.mem_of_mem_take hq
    have hq'' : q ∈ groupCounts rows := (List.mem_insertionSort countGE).1 hq'
    simp only [groupCounts, List.mem_map] at hq''
    obtain ⟨k, _, hke⟩ := hq''
    subst hqe
    subst hke
    rfl
  · simp only [jobStatsGrouped, List.map_map]
    show List.Pairwise _ _
    rw [List.pairwise_map]
    exact List.Pairwise.sublist (List.take_sublist _ _)
      (List.sorted_insertionSort countGE _)
  · simp only [jobStatsGrouped, List.length_map, List.length_take]
    exact min_le_left _ _
  · intro hcard
    have hlen : (groupCounts rows).length = (rows.map keyOfRow).toFinset.card := by
      simp [groupCounts, firstKeys_length]
    have hsortlen : ((groupCounts rows).insertionSort countGE).length =
        (groupCounts rows).length := List.length_insertionSort countGE _
    simp only [jobStatsGrouped, List.length_map, List.length_take, hsortlen, hlen]
    omega
  · intro c
    simp only [jobStatsGrouped]
    rw [List.filter_map, List.map_map]
    have hfun : ((fun r : AggRow => (r.value, r.count)) ∘
        (fun q : String × Nat => (⟨q.1, q.2, none, none⟩ : AggRow))) = id :=
      funext fun q => rfl
    rw [hfun, List.map_id]
    have h1 := (List.take_sublist 25
      ((groupCounts rows).insertionSort countGE)).filter
      (fun q : String × Nat => decide (q.2 = c))
    have h2 := filter_insertionSort_count (groupCounts rows) c
    rw [h2] at h1
    exact h1.trans (List.filter_sublist _)

/-- Witness for `c5_grouped_counts`: 41 distinct group values (40 named
plus the `"Unknown"` bucket from two missing-value rows) truncate to
exactly 25 rows. -/
theorem c5_grouped_counts_witness :
    totalOnlyMode { metric := "count", group_by := "country" } = false ∧
    40 ≤ (((List.range 40).map (fun i => (some (toString i) : Option String)) ++
      [none, none]).map keyOfRow).toFinset.card ∧
    (jobStatsGrouped ((List.range 40).map (fun i => (some (toString i) : Option String)) ++
      [none, none])).length = 25 :=
  ⟨by decide, by decide,
    (c5_grouped_counts { metric := "count", group_by := "country" }
      ((List.range 40).map (fun i => (some (toString i) : Option String)) ++ [none, none])
      (by decide) (by decide)).2.2.2.2.1 (by decide)⟩

/-- **C9** (confirmed).  For every parameter set and row set, every
emitted `AggregationRow` count is non-negative and the counts of all
emitted rows sum to at most the number of fetched rows. -/
theorem c9_sum_invariant (p : JobStatsParams) (rows : List (Option String)) :
    ((executeJobStats p rows).map (fun r => r.count)).sum ≤ rows.length ∧
    ∀ r ∈ executeJobStats p rows, 0 ≤ (r.count : Int) := by
  refine ⟨?_, fun r _ => Int.natCast_nonneg r.count⟩
  by_cases hp : p.group_by = "posted_month"
  · rw [show executeJobStats p rows = jobStatsMonthly rows by
      simp [executeJobStats, hp]]
    rw [jobStatsMonthly, monthlySeries_map_count]
    simp only [sortedMonthCounts, List.map_map]
    have hn := sortedMonthCounts_keys_nodup rows
    have hns : (((firstKeys (rows.filterMap extractMonthKey)).insertionSort
        strLe).map (fun k => (some k : Option String))).Nodup :=
      hn.map (Option.some_injective String)
    have hle := sum_countP_le extractMonthKey rows
      (((firstKeys (rows.filterMap extractMonthKey)).insertionSort strLe).map
        (fun k => (some k : Option String))) hns
    rw [List.map_map] at hle
    simpa [Function.comp] using hle
  · by_cases ht : totalOnlyMode p = true
    · simp [executeJobStats, hp, ht]
    · rw [show executeJobStats p rows = jobStatsGrouped rows by
        simp [executeJobStats, hp, ht]]
      simp only [jobStatsGrouped, List.map_map]
      have hmt : (((groupCounts rows).insertionSort countGE).take 25).map
          (fun q : String × Nat => q.2) =
          (((groupCounts rows).insertionSort countGE).map
            (fun q : String × Nat => q.2)).take 25 :=
        List.map_take _ _ _
      calc ((((groupCounts rows).insertionSort countGE).take 25).map
            (fun q : String × Nat => q.2)).sum
          ≤ (((groupCounts rows).insertionSort countGE).map
            (fun q : String × Nat => q.2)).sum := by
            rw [hmt]
            exact sum_take_le _ _
        _ = ((groupCounts rows).map (fun q : String × Nat => q.2)).sum :=
            ((List.perm_insertionSort countGE (groupCounts rows)).map
              (fun q : String × Nat => q.2)).sum_eq
        _ ≤ rows.length := by
            simp only [groupCounts, List.map_map]
            simpa [Function.comp] using
              sum_countP_le keyOfRow rows (firstKeys (rows.map keyOfRow))
                (firstKeys_nodup _)

/-- Witness for `c9_sum_invariant`'s per-row non-negativity at a concrete
grouped input. -/
theorem c9_sum_invariant_witness :
    ((executeJobStats { metric := "count", group_by := "country" }
      [some "Germany", some "France", none]).map (fun r => r.count)).sum ≤ 3 ∧
    ∀ r ∈ executeJobStats { metric := "count", group_by := "country" }
      [some "Germany", some "France", none], 0 ≤ (r.count : Int) :=
  ⟨(c9_sum_invariant { metric := "count", group_by := "country" }
      [some "Germany", some "France", none]).1,
    (c9_sum_invariant { metric := "count", group_by := "country" }
      [some "Germany", some "France", none]).2⟩

theorem mergeMentioned_length : ∀ (l : List MentionedJob) (seen : List String)
    (acc : List MentionedJob), acc.length < MAX_MENTIONED_JOBS →
    (mergeMentioned l seen acc).length ≤ MAX_MENTIONED_JOBS
  | [], _, acc, h => by simpa [mergeMentioned] using h.le
  | ⟨none, payload⟩ :: rest, seen, acc, h => by
    simp only [mergeMentioned]
    rw [if_neg (Nat.not_le.mpr h)]
    exact mergeMentioned_length rest seen acc h
  | ⟨some jid, payload⟩ :: rest, seen, acc, h => by
    simp only [mergeMentioned]
    by_cases hcond : jid ≠ "" ∧ jid ∉ seen
    · rw [if_pos hcond]
      by_cases hlen : MAX_MENTIONED_JOBS ≤
          (acc ++ [(⟨some jid, payload⟩ : MentionedJob)]).length
      · rw [if_pos hlen]
        simp only [List.length_append, List.length_singleton]
        omega
      · rw [if_neg hlen]
        exact mergeMentioned_length rest (jid :: seen) (acc ++ [⟨some jid, payload⟩])
          (Nat.not_le.1 hlen)
    · rw [if_neg hcond, if_neg (Nat.not_le.mpr h)]
      exact mergeMentioned_length rest seen acc h

theorem mergeMentioned_truthy : ∀ (l : List MentionedJob) (seen : List String)
    (acc : List MentionedJob), (∀ j ∈ acc, jobIdTruthy j = true) →
    ∀ x ∈ mergeMentioned l seen acc, jobIdTruthy x = true
  | [], _, acc, h => by simpa [mergeMentioned] using h
  | ⟨none, payload⟩ :: rest, seen, acc, h => by
    simp only [mergeMentioned]
    split
    · exact h
    · exact mergeMentioned_truthy rest seen acc h
  | ⟨some jid, payload⟩ :: rest, seen, acc, h => by
    simp only [mergeMentioned]
    split
    · rename_i hcond
      have hacc : ∀ x ∈ acc ++ [(⟨some jid, payload⟩ : MentionedJob)],
          jobIdTruthy x = true := by
        intro x hx
        rcases List.mem_append.1 hx with hx | hx
        · exact h x hx
        · have hxj : x = ⟨some jid, payload⟩ := by simpa using hx
          subst hxj
          simp [jobIdTruthy, hcond.1]
      split
      · exact hacc
      · exact mergeMentioned_truthy rest (jid :: seen) (acc ++ [⟨some jid, payload⟩]) hacc
    · split
      · exact h
      · exact mergeMentioned_truthy rest seen acc h

theorem mergeMentioned_sublist : ∀ (l : List MentionedJob) (seen : List String)
    (acc : List MentionedJob),
    ∃ s, mergeMentioned l seen acc = acc ++ s ∧ List.Sublist s l
  | [], _, acc => ⟨[], by simp [mergeMentioned], List.nil_sublist []⟩
  | ⟨none, payload⟩ :: rest, seen, acc => by
    simp only [mergeMentioned]
    split
    · exact ⟨[], by simp, List.nil_sublist _⟩
    · obtain ⟨s, hs, hsub⟩ := mergeMentioned_sublist rest seen acc
      exact ⟨s, hs, hsub.cons _⟩
  | ⟨some jid, payload⟩ :: rest, seen, acc => by
    simp only [mergeMentioned]
    split
    · split
      · exact ⟨[⟨some jid, payload⟩], rfl, (List.nil_sublist rest).cons₂ _⟩
      · obtain ⟨s, hs, hsub⟩ :=
          mergeMentioned_sublist rest (jid :: seen) (acc ++ [⟨some jid, payload⟩])
        refine ⟨⟨some jid, payload⟩ :: s, ?_, hsub.cons₂ _⟩
        rw [hs, List.append_assoc]
        rfl
    · split
      · exact ⟨[], by simp, List.nil_sublist _⟩
      · obtain ⟨s, hs, hsub⟩ := mergeMentioned_sublist rest seen acc
        exact ⟨s, hs, hsub.cons _⟩

theorem mergeMentioned_new_not_seen : ∀ (l : List MentionedJob) (seen : List String)
    (acc : List MentionedJob) (x : MentionedJob),
    x ∈ mergeMentioned l seen acc → x ∉ acc →
    ∀ xid, x.job_id = some xid → xid ∉ seen
  | [], _, acc, x, hx, hnx, _, _ => by
    simp only [mergeMentioned] at hx
    exact absurd hx hnx
  | ⟨none, payload⟩ :: rest, seen, acc, x, hx, hnx, xid, hxid => by
    revert hx
    simp only [mergeMentioned]
    split
    · intro hx; exact absurd hx hnx
    · intro hx
      exact mergeMentioned_new_not_seen rest seen acc x hx hnx xid hxid
  | ⟨some jid, payload⟩ :: rest, seen, acc, x, hx, hnx, xid, hxid => by
    revert hx
    simp only [mergeMentioned]
    split
    · rename_i hcond
      split
      · intro hx hseen
        rcases List.mem_append.1 hx with h | h
        · exact hnx h
        · have hxj : x = ⟨some jid, payload⟩ := by simpa using h
          subst hxj
          simp only [MentionedJob.job_id] at hxid
          cases hxid
          exact hcond.2 hseen
      · intro hx hseen
        by_cases hxin : x ∈ acc ++ [(⟨some jid, payload⟩ : MentionedJob)]
        · rcases List.mem_append.1 hxin with h | h
          · exact hnx h
          · have hxj : x = ⟨some jid, payload⟩ := by simpa using h
            subst hxj
            simp only [MentionedJob.job_id] at hxid
            cases hxid
            exact hcond.2 hseen
        · exact mergeMentioned_new_not_seen rest (jid :: seen)
            (acc ++ [⟨some jid, payload⟩]) x hx hxin xid hxid
            (List.mem_cons_of_mem _ hseen)
    · split
      · intro hx; exact absurd hx hnx
      · intro hx
        exact mergeMentioned_new_not_seen rest seen acc x hx hnx xid hxid

theorem mergeMentioned_pairwise : ∀ (l : List MentionedJob) (seen : List String)
    (acc : List MentionedJob),
    acc.Pairwise (fun a b => a.job_id ≠ b.job_id) →
    (∀ a ∈ acc, ∀ aid, a.job_id = some aid → aid ∈ seen) →
    (mergeMentioned l seen acc).Pairwise (fun a b => a.job_id ≠ b.job_id)
  | [], _, acc, hpw, _ => by simpa [mergeMentioned] using hpw
  | ⟨none, payload⟩ :: rest, seen, acc, hpw, hseen => by
    simp only [mergeMentioned]
    split
    · exact hpw
    · exact mergeMentioned_pairwise rest seen acc hpw hseen
  | ⟨some jid, payload⟩ :: rest, seen, acc, hpw, hseen => by
    simp only [mergeMentioned]
    split
    · rename_i hcond
      have hpw' : (acc ++ [(⟨some jid, payload⟩ : MentionedJob)]).Pairwise
          (fun a b => a.job_id ≠ b.job_id) := by
        rw [List.pairwise_append]
        refine ⟨hpw, List.pairwise_singleton _ _, ?_⟩
        intro a ha b hb
        have hbj : b = ⟨some jid, payload⟩ := by simpa using hb
        subst hbj
        intro heq
        exact hcond.2 (hseen a ha jid heq)
      have hseen' : ∀ a ∈ acc ++ [(⟨some jid, payload⟩ : MentionedJob)],
          ∀ aid, a.job_id = some aid → aid ∈ jid :: seen := by
        intro a ha aid haid
        rcases List.mem_append.1 ha with h | h
        · exact List.mem_cons_of_mem _ (hseen a h aid haid)
        · have haj : a = ⟨some jid, payload⟩ := by simpa using h
          subst haj
          simp only [MentionedJob.job_id] at haid
          cases haid
          exact List.mem_cons_self _ _
      split
      · exact hpw'
      · exact mergeMentioned_pairwise rest (jid :: seen)
          (acc ++ [⟨some jid, payload⟩]) hpw' hseen'
    · split
      · exact hpw
      · exact mergeMentioned_pairwise rest seen acc hpw hseen

theorem mergeMentioned_precedence : ∀ (jobs existing : List MentionedJob)
    (seen : List String) (acc : List MentionedJob) (x j : MentionedJob),
    x ∈ jobs → jobIdTruthy x = true →
    j ∈ mergeMentioned (jobs ++ existing) seen acc → j ∉ acc →
    j.job_id = x.job_id → j ∈ jobs
  | [], _, _, _, x, _, hx, _, _, _, _ => absurd hx (List.not_mem_nil x)
  | ⟨none, py⟩ :: jobs', existing, seen, acc, x, j, hx, hxt, hj, hnj, hid => by
    rw [List.cons_append] at hj
    revert hj
    simp only [mergeMentioned]
    have hxy : x ≠ ⟨none, py⟩ := by
      intro h
      subst h
      simp [jobIdTruthy] at hxt
    have hx' : x ∈ jobs' := (List.mem_cons.1 hx).resolve_left hxy
    split
    · intro hj; exact absurd hj hnj
    · intro hj
      exact List.mem_cons_of_mem _
        (mergeMentioned_precedence jobs' existing seen acc x j hx' hxt hj hnj hid)
  | ⟨some yid, py⟩ :: jobs', existing, seen, acc, x, j, hx, hxt, hj, hnj, hid => by
    rw [List.cons_append] at hj
    revert hj
    simp only [mergeMentioned]
    split
    · rename_i hcond
      split
      · intro hj
        rcases List.mem_append.1 hj with h | h
        · exact absurd h hnj
        · have hjy : j = ⟨some yid, py⟩ := by simpa using h
          subst hjy
          exact List.mem_cons_self _ _
      · intro hj
        by_cases hjy : j ∈ acc ++ [(⟨some yid, py⟩ : MentionedJob)]
        · rcases List.mem_append.1 hjy with h | h
          · exact absurd h hnj
          · have hjy' : j = ⟨some yid, py⟩ := by simpa using h
            subst hjy'
            exact List.mem_cons_self _ _
        · rcases List.mem_cons.1 hx with hxy | hx'
          · have hjid : j.job_id = some yid := by rw [hid, hxy]
            have hq := mergeMentioned_new_not_seen (jobs' ++ existing) (yid :: seen)
              (acc ++ [⟨some yid, py⟩]) j hj hjy yid hjid
            exact absurd (List.mem_cons_self _ _) hq
          · exact List.mem_cons_of_mem _
              (mergeMentioned_precedence jobs' existing (yid :: seen)
                (acc ++ [⟨some yid, py⟩]) x j hx' hxt hj hjy hid)
    · rename_i hcond
      split
      · intro hj; exact absurd hj hnj
      · intro hj
        rcases List.mem_cons.1 hx with hxy | hx'
        · have hyne : yid ≠ "" := by
            intro h
            rw [hxy, h] at hxt
            simp [jobIdTruthy] at hxt
          have hyseen : yid ∈ seen := by
            by_contra hns
            exact hcond ⟨hyne, hns⟩
          have hjid : j.job_id = some yid := by rw [hid, hxy]
          have hq := mergeMentioned_new_not_seen (jobs' ++ existing) seen acc
            j hj hnj yid hjid
          exact absurd hyseen hq
        · exact List.mem_cons_of_mem _
            (mergeMentioned_precedence jobs' existing seen acc x j hx' hxt hj hnj hid)

/-- **C10** (confirmed).  After every `set_mentioned_jobs` call, the stored
`mentioned_jobs` list has length at most 10; every stored entry has a
truthy `job_id` (entries without one are dropped); no two stored entries
share a `job_id`; the stored list is a subsequence of "newly passed jobs
followed by previously stored jobs" (so new jobs come first); when a job id
occurs among the truthy newly passed jobs, the stored entry with that id is
one of the newly passed jobs (new jobs take precedence); and
`get_mentioned_jobs` on a conversation never written returns `[]`. -/
theorem c10_mentioned_jobs (mem : MentionedStore) (cid : String)
    (jobs : List MentionedJob) :
    (getMentionedJobs (setMentionedJobs mem cid jobs) cid).length ≤ MAX_MENTIONED_JOBS ∧
    (∀ j ∈ getMentionedJobs (setMentionedJobs mem cid jobs) cid,
      jobIdTruthy j = true) ∧
    (getMentionedJobs (setMentionedJobs mem cid jobs) cid).Pairwise
      (fun a b => a.job_id ≠ b.job_id) ∧
    List.Sublist (getMentionedJobs (setMentionedJobs mem cid jobs) cid)
      (jobs ++ getMentionedJobs mem cid) ∧
    (∀ j ∈ getMentionedJobs (setMentionedJobs mem cid jobs) cid,
      (∃ x ∈ jobs, jobIdTruthy x = true ∧ x.job_id = j.job_id) → j ∈ jobs) ∧
    (∀ (m : MentionedStore) (c : String), m c = none → getMentionedJobs m c = []) := by
  have hout : getMentionedJobs (setMentionedJobs mem cid jobs) cid =
      mergeMentioned (jobs ++ (mem cid).getD []) [] [] := by
    simp [getMentionedJobs, setMentionedJobs]
  refine ⟨?_, ?_, ?_, ?_, ?_, fun m c hm => by simp [getMentionedJobs, hm]⟩
  · rw [hout]
    exact mergeMentioned_length _ _ _ (by simp [MAX_MENTIONED_JOBS])
  · rw [hout]
    exact mergeMentioned_truthy _ _ _ (by simp)
  · rw [hout]
    exact mergeMentioned_pairwise _ _ _ List.Pairwise.nil (by simp)
  · rw [hout]
    obtain ⟨s, hs, hsub⟩ := mergeMentioned_sublist (jobs ++ (mem cid).getD []) [] []
    rw [hs]
    simpa [getMentionedJobs] using hsub
  · rw [hout]
    rintro j hj ⟨x, hx, hxt, hxid⟩
    exact mergeMentioned_precedence jobs ((mem cid).getD []) [] [] x j hx hxt hj
      (List.not_mem_nil j) hxid.symm

/-- Witness for `c10_mentioned_jobs`: two new jobs (one superseding a
stored duplicate id, one without an id) merged over an existing store. -/
theorem c10_mentioned_jobs_witness :
    (getMentionedJobs
      (setMentionedJobs
        (fun c => if c = "c1" then
          some [⟨some "a", [("src", "old")]⟩, ⟨some "c", []⟩] else none)
        "c1"
        [⟨some "b", []⟩, ⟨some "a", [("src", "new")]⟩, ⟨none, []⟩])
      "c1").length ≤ MAX_MENTIONED_JOBS ∧
    getMentionedJobs (fun _ => (none : Option (List MentionedJob))) "c9" = [] :=
  ⟨(c10_mentioned_jobs
      (fun c => if c = "c1" then
        some [⟨some "a", [("src", "old")]⟩, ⟨some "c", []⟩] else none)
      "c1"
      [⟨some "b", []⟩, ⟨some "a", [("src", "new")]⟩, ⟨none, []⟩]).1,
    (c10_mentioned_jobs (fun _ => none) "c0" []).2.2.2.2.2
      (fun _ => none) "c9" rfl⟩

end LambdaBackend
